import Mathlib

/-!
Shallow embedding of `src/memory_manager.py`: a software-simulated heap
allocator over a fixed-size byte buffer, with block handles carrying
bounds-checked read/write, first-fit allocation, free-extent coalescing
and compaction (defragmentation).

Python `bytearray` slicing (including negative-index normalisation and
insertion on empty slices) is modelled by `pyNorm` / `pyGetSlice` /
`pySetSlice`.  Every mutating operation returns the post-call state
together with an `Except` result, because a Python method that raises may
still have mutated the object in place.
-/

namespace MemMgr

/-- The error taxonomy of `memory_manager.py` (classes
`InvalidSizeError`, `InvalidBlockError`, `UseAfterFreeError`,
`OutOfMemoryError`, `DoubleFreeError`, `OutOfBoundsError`). -/
inductive MMError where
  | invalidSize (size : Int)
  | invalidBlock (blockId : Nat)
  | useAfterFree (blockId : Nat)
  | doubleFree (blockId : Nat)
  | outOfBounds (operation : String) (size : Int)
  | outOfMemory (requestedSize : Int) (availableSize : Nat)
  deriving DecidableEq

/-- Python index normalisation for a slice bound on a sequence of length
`len`: a negative index counts from the end (clamped below at 0), a
non-negative one is clamped above at `len`. -/
def pyNorm (len : Nat) (i : Int) : Nat :=
  if i < 0 then ((len : Int) + i).toNat else min i.toNat len

/-- Python `buf[a:b]` (step 1). -/
def pyGetSlice (buf : List Nat) (a b : Int) : List Nat :=
  let lo := pyNorm buf.length a
  let hi := pyNorm buf.length b
  (buf.drop lo).take (hi - lo)

/-- Python `buf[a:b] = data` (step 1) on a `bytearray`: replaces the
normalised slice with `data`, growing or shrinking the sequence when the
lengths differ. -/
def pySetSlice (buf : List Nat) (a b : Int) (data : List Nat) : List Nat :=
  let lo := pyNorm buf.length a
  let hi := max lo (pyNorm buf.length b)
  buf.take lo ++ data ++ buf.drop hi

/-- The fields of class `MemoryBlock` that `write` / `read` consult
(`block_id`, `start`, `size`, `_freed`); the shared buffer is passed
explicitly. -/
structure MemoryBlock where
  blockId : Nat
  start : Nat
  size : Nat
  freed : Bool
  deriving DecidableEq

/-- `MemoryBlock.write(data, offset)`: `UseAfterFree` when freed,
`OutOfBounds` when `offset + len(data) > size`, otherwise
`buffer[start+offset : start+offset+len(data)] = data`.  Returns the
buffer after the call together with the result. -/
def MemoryBlock.write (blk : MemoryBlock) (buf : List Nat) (data : List Nat)
    (offset : Int) : List Nat × Except MMError Unit :=
  if blk.freed then
    (buf, .error (.useAfterFree blk.blockId))
  else if offset + data.length > (blk.size : Int) then
    (buf, .error (.outOfBounds "Write" (offset + data.length)))
  else
    let writeStart : Int := (blk.start : Int) + offset
    let writeEnd : Int := writeStart + data.length
    (pySetSlice buf writeStart writeEnd data, .ok ())

/-- `MemoryBlock.read(size, offset)`: `UseAfterFree` when freed; `size`
defaults to `self.size - offset`; `OutOfBounds` when
`offset + size > self.size`; otherwise returns
`bytes(buffer[start+offset : start+offset+size])`. -/
def MemoryBlock.read (blk : MemoryBlock) (buf : List Nat) (sz : Option Int)
    (offset : Int) : Except MMError (List Nat) :=
  if blk.freed then
    .error (.useAfterFree blk.blockId)
  else
    let sz := sz.getD ((blk.size : Int) - offset)
    if offset + sz > (blk.size : Int) then
      .error (.outOfBounds "Read" (offset + sz))
    else
      let readStart : Int := (blk.start : Int) + offset
      .ok (pyGetSlice buf readStart (readStart + sz))

instance {ε α : Type} [DecidableEq ε] [DecidableEq α] : DecidableEq (Except ε α) :=
  fun x y =>
    match x, y with
    | .ok a, .ok b =>
      if h : a = b then isTrue (congrArg Except.ok h)
      else isFalse (fun hh => h (Except.ok.inj hh))
    | .error e, .error f =>
      if h : e = f then isTrue (congrArg Except.error h)
      else isFalse (fun hh => h (Except.error.inj hh))
    | .ok _, .error _ => isFalse (fun hh => Except.noConfusion hh)
    | .error _, .ok _ => isFalse (fun hh => Except.noConfusion hh)

/-- The bookkeeping record the `MemoryManager` keeps for one allocated
block (`block_id`, `start`, `size`); blocks in `_allocated_blocks` are
never freed. -/
structure Block where
  blockId : Nat
  start : Nat
  size : Nat
  deriving DecidableEq

/-- Class `FreeBlock`: a free extent `(start, size)`. -/
structure FreeBlock where
  start : Nat
  size : Nat
  deriving DecidableEq

/-- Ordering of allocated blocks by `start`, the key of the
`list.sort` call in `_defragmentation`. -/
def Block.le (a b : Block) : Prop := a.start ≤ b.start

instance : DecidableRel Block.le := fun a b => Nat.decLe a.start b.start

instance : IsTotal Block Block.le := ⟨fun a b => Nat.le_total a.start b.start⟩

instance : IsTrans Block Block.le := ⟨fun _ _ _ => Nat.le_trans⟩

/-- Ordering of free extents by `start`, the key of the `list.sort`
call in `free`. -/
def FreeBlock.le (f g : FreeBlock) : Prop := f.start ≤ g.start

instance : DecidableRel FreeBlock.le := fun f g => Nat.decLe f.start g.start

instance : IsTotal FreeBlock FreeBlock.le := ⟨fun f g => Nat.le_total f.start g.start⟩

instance : IsTrans FreeBlock FreeBlock.le := ⟨fun _ _ _ => Nat.le_trans⟩

/-- State of a `MemoryManager`: the byte buffer, `_total_size`,
`_allocated_blocks`, `_free_blocks`, the `MemoryBlock._next_id` counter,
and the ids of blocks this manager has marked freed (the `_freed` flags
of the handles it handed out). -/
structure MMState where
  buffer : List Nat
  totalSize : Nat
  allocatedBlocks : List Block
  freeBlocks : List FreeBlock
  nextId : Nat
  freedIds : List Nat
  deriving DecidableEq

/-- `MemoryManager.__init__(size)`. -/
def MMState.init (size : Nat) : MMState :=
  { buffer := List.replicate size 0
    totalSize := size
    allocatedBlocks := []
    freeBlocks := [⟨0, size⟩]
    nextId := 0
    freedIds := [] }

/-- Property `allocated_size`: sum of the sizes of the tracked allocated
blocks. -/
def MMState.allocatedSize (s : MMState) : Nat :=
  (s.allocatedBlocks.map Block.size).sum

/-- Property `free_size`: sum of the sizes of the free extents. -/
def MMState.freeSize (s : MMState) : Nat :=
  (s.freeBlocks.map FreeBlock.size).sum

/-- `MemoryManager._find_free_block(size)`: first extent (in current
list order) whose size is at least `size`. -/
def MMState.findFreeBlock (s : MMState) (size : Nat) : Option FreeBlock :=
  s.freeBlocks.find? (fun f => size ≤ f.size)

/-- The success path of `MemoryManager.alloc` once a fitting extent
`fb` has been found: create the block at `fb.start`, append it to the
allocated list, remove `fb` (Python `list.remove`: first occurrence) and
append the remainder extent when one is left over. -/
def MMState.allocAt (s : MMState) (fb : FreeBlock) (n : Nat) : MMState × Block :=
  let blk : Block := ⟨s.nextId, fb.start, n⟩
  let remainingSize := fb.size - n
  let free1 := s.freeBlocks.erase fb
  let free2 := if 0 < remainingSize then free1 ++ [⟨blk.start + n, remainingSize⟩] else free1
  ({ s with allocatedBlocks := s.allocatedBlocks ++ [blk]
            freeBlocks := free2
            nextId := s.nextId + 1 }, blk)

/-- One pass of the loop in `MemoryManager._defragmentation`: walk the
(already sorted) allocated blocks, sliding each block whose `start`
differs from the running position down to it (`_move_block`: copy the
bytes, update `start`), counting the moves. -/
def defragLoop (buf : List Nat) (pos : Nat) : List Block → List Nat × List Block × Nat
  | [] => (buf, [], 0)
  | b :: bs =>
    if b.start = pos then
      let r := defragLoop buf (pos + b.size) bs
      (r.1, b :: r.2.1, r.2.2)
    else
      let buf1 := pySetSlice buf (pos : Int) ((pos : Int) + b.size)
        (pyGetSlice buf (b.start : Int) ((b.start : Int) + b.size))
      let r := defragLoop buf1 (pos + b.size) bs
      (r.1, ⟨b.blockId, pos, b.size⟩ :: r.2.1, r.2.2 + 1)

/-- `MemoryManager._defragmentation()`: sort the allocated blocks by
`start`, slide them down, then replace the free list with the single
trailing extent (or nothing when the buffer is fully allocated).
Returns the new state and the number of blocks moved. -/
def MMState.defragRun (s : MMState) : MMState × Nat :=
  -- Python `list.sort(key=...)` is a stable sort by key; `insertionSort` is
  -- the stable sort for this ordering
  let sorted := List.insertionSort Block.le s.allocatedBlocks
  let r := defragLoop s.buffer 0 sorted
  let totalAllocated := (r.2.1.map Block.size).sum
  let free2 := if totalAllocated < s.totalSize then
      [(⟨totalAllocated, s.totalSize - totalAllocated⟩ : FreeBlock)]
    else []
  ({ s with buffer := r.1
            allocatedBlocks := r.2.1
            freeBlocks := free2 }, r.2.2)

/-- `MemoryManager.alloc(size)`: reject non-positive sizes, first-fit
search, on failure defragment and retry once, on repeated failure raise
`OutOfMemoryError(size, self.free_size)` (the state keeps the mutations
made by the internal defragmentation). -/
def MMState.alloc (s : MMState) (size : Int) : MMState × Except MMError Block :=
  if size ≤ 0 then
    (s, .error (.invalidSize size))
  else
    match s.findFreeBlock size.toNat with
    | some fb =>
      let r := s.allocAt fb size.toNat
      (r.1, .ok r.2)
    | none =>
      let s1 := (s.defragRun).1
      match s1.findFreeBlock size.toNat with
      | some fb =>
        let r := s1.allocAt fb size.toNat
        (r.1, .ok r.2)
      | none => (s1, .error (.outOfMemory size s1.freeSize))

/-- The loop of `MemoryManager._coalesce_free_blocks` over the tail of
the (sorted) free list: merge `current` with the next extent whenever
`current.end == next.start`. -/
def coalesceAux (current : FreeBlock) : List FreeBlock → List FreeBlock
  | [] => [current]
  | nb :: rest =>
    if current.start + current.size = nb.start then
      coalesceAux ⟨current.start, current.size + nb.size⟩ rest
    else
      current :: coalesceAux nb rest

/-- `MemoryManager._coalesce_free_blocks()` as a function of the free
list.  `none` models the `IndexError` the method raises on an empty
list: it begins with `current = self._free_blocks[0]`. -/
def coalesceFreeBlocks : List FreeBlock → Option (List FreeBlock)
  | [] => none
  | x :: xs => some (coalesceAux x xs)

/-- `MemoryManager.free(block)`.  The handle is identified by its block
id (ids are unique; Python membership and `list.remove` use object
identity).  On a tracked block: zero-fill its byte range, mark it freed,
remove it from the allocated list, append its extent to the free list,
sort the free list by `start` and coalesce.  Otherwise `DoubleFreeError`
when the handle was already freed by this manager, else
`InvalidBlockError`. -/
def MMState.free (s : MMState) (blockId : Nat) : MMState × Except MMError Unit :=
  match s.allocatedBlocks.find? (fun b => b.blockId == blockId) with
  | none =>
    if blockId ∈ s.freedIds then
      (s, .error (.doubleFree blockId))
    else
      (s, .error (.invalidBlock blockId))
  | some b =>
    let buf := pySetSlice s.buffer (b.start : Int) ((b.start : Int) + b.size)
      (List.replicate b.size 0)
    let alloc1 := s.allocatedBlocks.erase b
    let sorted := List.insertionSort FreeBlock.le
      (s.freeBlocks ++ [(⟨b.start, b.size⟩ : FreeBlock)])
    -- `sorted` is nonempty here, so the `IndexError` branch (`none`) is unreachable
    let free2 := (coalesceFreeBlocks sorted).getD []
    ({ s with buffer := buf
              allocatedBlocks := alloc1
              freeBlocks := free2
              freedIds := blockId :: s.freedIds }, .ok ())

/-- One public mutating call on the manager. -/
inductive Op where
  | alloc (size : Int)
  | free (blockId : Nat)
  | defragment

/-- The state after one call (results and errors discarded). -/
def MMState.step (s : MMState) : Op → MMState
  | .alloc n => (s.alloc n).1
  | .free i => (s.free i).1
  | .defragment => (s.defragRun).1

/-- The state after a sequence of calls. -/
def MMState.run (s : MMState) (ops : List Op) : MMState :=
  ops.foldl MMState.step s

/-- Does address `a` lie in allocated block `b`? -/
def inBlock (a : Nat) (b : Block) : Bool :=
  decide (b.start ≤ a ∧ a < b.start + b.size)

/-- Does address `a` lie in free extent `f`? -/
def inFree (a : Nat) (f : FreeBlock) : Bool :=
  decide (f.start ≤ a ∧ a < f.start + f.size)

/-- How many regions (allocated blocks plus free extents) contain
address `a`. -/
def MMState.cover (s : MMState) (a : Nat) : Nat :=
  s.allocatedBlocks.countP (inBlock a) + s.freeBlocks.countP (inFree a)

/-- The union of the live block ranges and the free extent ranges is
exactly `[0, totalSize)`, with no overlaps and no gaps: every address
below `totalSize` lies in exactly one region and every other address in
none. -/
def MMState.exactCover (s : MMState) : Prop :=
  ∀ a : Nat, s.cover a = if a < s.totalSize then 1 else 0

/-- Two free extents are non-overlapping and non-adjacent: their ranges
are disjoint and neither ends where the other starts. -/
def FreeBlock.sep (f g : FreeBlock) : Prop :=
  (f.start + f.size ≤ g.start ∨ g.start + g.size ≤ f.start) ∧
  f.start + f.size ≠ g.start ∧ g.start + g.size ≠ f.start

/-! ### Lemmas about Python slicing in the in-bounds regime -/

theorem pyNorm_eq {L : Nat} {i : Int} (h0 : 0 ≤ i) (hL : i ≤ (L : Int)) :
    pyNorm L i = i.toNat := by
  simp only [pyNorm, if_neg (by omega : ¬ i < 0)]
  exact Nat.min_eq_left (by omega)

theorem pyGetSlice_eq_nil (buf : List Nat) {a b : Int} (h0 : 0 ≤ b) (hba : b ≤ a) :
    pyGetSlice buf a b = [] := by
  simp only [pyGetSlice, pyNorm, if_neg (by omega : ¬ a < 0), if_neg (by omega : ¬ b < 0)]
  have h : min b.toNat buf.length ≤ min a.toNat buf.length :=
    min_le_min (by omega) (le_refl _)
  rw [Nat.sub_eq_zero_of_le h]
  simp

/-- In-bounds slice assignment of exactly matching length is a splice. -/
theorem pySetSlice_eq_splice (buf data : List Nat) {a : Nat}
    (h : a + data.length ≤ buf.length) :
    pySetSlice buf (a : Int) ((a : Int) + data.length) data =
      buf.take a ++ data ++ buf.drop (a + data.length) := by
  have h1 : pyNorm buf.length (a : Int) = a := by
    rw [pyNorm_eq (by omega) (by omega)]; omega
  have h2 : pyNorm buf.length ((a : Int) + data.length) = a + data.length := by
    rw [pyNorm_eq (by omega) (by omega)]; omega
  simp only [pySetSlice, h1, h2]
  rw [Nat.max_eq_right (by omega)]

/-- Normal form of a successful in-bounds `MemoryBlock.write` with a
non-negative offset. -/
theorem write_ok (blk : MemoryBlock) (buf data : List Nat) (off : Int)
    (hfr : blk.freed = false) (h0 : 0 ≤ off)
    (hsz : off + data.length ≤ (blk.size : Int))
    (hin : blk.start + blk.size ≤ buf.length) :
    blk.write buf data off =
      (buf.take (blk.start + off.toNat) ++ data ++
        buf.drop (blk.start + off.toNat + data.length), .ok ()) := by
  have hoffsz : off.toNat + data.length ≤ blk.size := by omega
  have hab : (blk.start : Int) + off = ((blk.start + off.toNat : Nat) : Int) := by omega
  simp only [MemoryBlock.write, hfr, Bool.false_eq_true, if_false,
    if_neg (by omega : ¬ off + (data.length : Int) > (blk.size : Int))]
  rw [hab, ← pySetSlice_eq_splice buf data (a := blk.start + off.toNat) (by omega)]

/-! ### C4: write confinement -/

/-- C4 counterexample: the claim "only bytes inside the block's range
are modified, for every offset including negative ones" is false: `write` checks only
`offset + len(data) > size`, so a negative offset passes the check and
the write lands below `start`.  With a block at `[2, 4)` over the buffer
`[5,6,7,8]`, `write([9], offset=-1)` succeeds and changes byte 1, which
lies outside the block. -/
theorem claim_C4_counterexample :
    (MemoryBlock.write ⟨0, 2, 2, false⟩ [5, 6, 7, 8] [9] (-1)).2 = .ok () ∧
    (MemoryBlock.write ⟨0, 2, 2, false⟩ [5, 6, 7, 8] [9] (-1)).1[1]? = some 9 ∧
    ([5, 6, 7, 8] : List Nat)[1]? = some 6 ∧
    1 < (⟨0, 2, 2, false⟩ : MemoryBlock).start := by decide

/-- C4, amended: for every block lying inside the buffer and every
**non-negative** offset, a successful `write(data, offset)` modifies
only bytes of the buffer inside the block's range `[start, start+size)`;
every byte at an index below `start` or at/above `start + size` is
unchanged. -/
theorem claim_C4 (blk : MemoryBlock) (buf data : List Nat) (off : Int)
    (h0 : 0 ≤ off) (hin : blk.start + blk.size ≤ buf.length)
    (hok : (blk.write buf data off).2 = .ok ()) :
    ∀ i : Nat, (i < blk.start ∨ blk.start + blk.size ≤ i) →
      (blk.write buf data off).1[i]? = buf[i]? := by
  intro i hi
  have hfr : blk.freed = false := by
    by_contra h
    rw [Bool.not_eq_false] at h
    simp [MemoryBlock.write, h] at hok
  have hsz : off + (data.length : Int) ≤ (blk.size : Int) := by
    by_contra h
    simp [MemoryBlock.write, hfr, if_pos (by omega : off + (data.length : Int) > (blk.size : Int))]
      at hok
  rw [write_ok blk buf data off hfr h0 hsz hin]
  have hL : (buf.take (blk.start + off.toNat)).length = blk.start + off.toNat := by
    rw [List.length_take]
    exact Nat.min_eq_left (by omega)
  rcases hi with hi | hi
  · rw [List.getElem?_append_left, List.getElem?_append_left, List.getElem?_take_of_lt]
    · omega
    · rw [hL]; omega
    · rw [List.length_append, hL]; omega
  · have h1 : (buf.take (blk.start + off.toNat) ++ data).length ≤ i := by
      rw [List.length_append, hL]; omega
    rw [List.getElem?_append_right h1, List.getElem?_drop]
    congr 1
    rw [List.length_append, hL]
    omega

/-- Witness for the amended C4 at a concrete input. -/
theorem claim_C4_witness :
    (MemoryBlock.write ⟨0, 1, 1, false⟩ [1, 2, 3] [9] 0).1[0]? =
      ([1, 2, 3] : List Nat)[0]? :=
  claim_C4 ⟨0, 1, 1, false⟩ [1, 2, 3] [9] 0 (by decide) (by decide) (by decide)
    0 (Or.inl (by decide))

/-! ### C9: write/read round trip -/

/-- C9 counterexample: the claim quantifies over *every* offset with
`o + len(b) <= block.size`, which includes negative offsets.  At
`o = -10` on a 4-byte block over a 4-byte buffer the write's slice
normalises to the empty slice at 0 and *inserts* the data (growing the
buffer), and the subsequent read returns `b''`, not the written data. -/
theorem claim_C9_counterexample :
    ((-10 : Int) + (([9] : List Nat).length : Int) ≤
      (((⟨0, 0, 4, false⟩ : MemoryBlock)).size : Int)) ∧
    (MemoryBlock.write ⟨0, 0, 4, false⟩ [5, 6, 7, 8] [9] (-10)).2 = .ok () ∧
    MemoryBlock.read ⟨0, 0, 4, false⟩
      (MemoryBlock.write ⟨0, 0, 4, false⟩ [5, 6, 7, 8] [9] (-10)).1
      (some (([9] : List Nat).length : Int)) (-10) ≠ .ok [9] := by decide

/-- C9, amended: for every non-freed block lying inside the buffer,
every byte string `data` and every **non-negative** offset `o` with
`o + len(data) ≤ size`, writing `data` at `o` and then reading
`len(data)` bytes from `o` returns exactly `data`. -/
theorem claim_C9 (blk : MemoryBlock) (buf data : List Nat) (off : Int)
    (hfr : blk.freed = false) (h0 : 0 ≤ off)
    (hsz : off + data.length ≤ (blk.size : Int))
    (hin : blk.start + blk.size ≤ buf.length) :
    blk.read (blk.write buf data off).1 (some data.length) off = .ok data := by
  rw [write_ok blk buf data off hfr h0 hsz hin]
  set a := blk.start + off.toNat with ha
  have hL : (buf.take a ++ data ++ buf.drop (a + data.length)).length = buf.length := by
    simp only [List.length_append, List.length_take, List.length_drop]
    omega
  simp only [MemoryBlock.read, hfr, Bool.false_eq_true, if_false, Option.getD_some,
    if_neg (by omega : ¬ off + (data.length : Int) > (blk.size : Int))]
  congr 1
  have hs1 : (blk.start : Int) + off = ((a : Nat) : Int) := by omega
  rw [pyGetSlice, hs1, hL]
  have hs2 : ((a : Nat) : Int) + (data.length : Int) = (((a + data.length : Nat)) : Int) := by
    push_cast; ring
  rw [hs2, pyNorm_eq (by omega) (by omega), pyNorm_eq (by omega) (by omega)]
  simp only [Int.toNat_natCast]
  rw [List.append_assoc,
    List.drop_left' (by rw [List.length_take]; exact Nat.min_eq_left (by omega)),
    Nat.add_sub_cancel_left, List.take_left' rfl]

/-- Witness for the amended C9 at a concrete input. -/
theorem claim_C9_witness :
    MemoryBlock.read ⟨0, 0, 2, false⟩
      (MemoryBlock.write ⟨0, 0, 2, false⟩ [3, 4] [7] 0).1 (some 1) 0 = .ok [7] := by
  have h := claim_C9 ⟨0, 0, 2, false⟩ [3, 4] [7] 0 rfl (by decide) (by decide) (by decide)
  exact h

/-! ### C10: default-size read past the end of the block -/

/-- C10: for a non-freed block and any offset strictly greater than the
block's size, `read` with the default size does not raise
`OutOfBounds`: the default size `size - offset` is negative, the check
`offset + size > self.size` compares `self.size > self.size` and
passes, and the empty byte string is returned. -/
theorem claim_C10 (blk : MemoryBlock) (buf : List Nat) (off : Int)
    (hfr : blk.freed = false) (hoff : (blk.size : Int) < off) :
    blk.read buf none off = .ok [] := by
  simp only [MemoryBlock.read, hfr, Bool.false_eq_true, if_false, Option.getD_none,
    if_neg (by omega : ¬ off + ((blk.size : Int) - off) > (blk.size : Int))]
  rw [pyGetSlice_eq_nil buf (by omega) (by omega)]

/-- Witness for C10 at a concrete input. -/
theorem claim_C10_witness :
    MemoryBlock.read ⟨0, 0, 2, false⟩ [7, 8] none 3 = .ok [] :=
  claim_C10 ⟨0, 0, 2, false⟩ [7, 8] 3 rfl (by decide)

/-! ### C5: coalescing and the empty free list -/

/-- C5 (code bug): `_coalesce_free_blocks` does **not** handle the empty list: it
begins with `current = self._free_blocks[0]`, which raises `IndexError`
on an empty list (modelled by `none`), instead of being a no-op as the
specification requires. -/
theorem claim_C5 : coalesceFreeBlocks [] = none := rfl

/-! ### The relocation loop of `_defragmentation` -/

/-- Specification of the relocation loop: the blocks, in sorted order,
are placed back to back from offset `pos`, each keeping its identity
and size and changing only its `start`. -/
def relocate (pos : Nat) : List Block → List Block
  | [] => []
  | b :: bs => ⟨b.blockId, pos, b.size⟩ :: relocate (pos + b.size) bs

/-- Specification of the loop's move counter: a block already at its
target offset is not counted. -/
def countMoved (pos : Nat) : List Block → Nat
  | [] => 0
  | b :: bs => (if b.start = pos then 0 else 1) + countMoved (pos + b.size) bs

theorem defragLoop_spec : ∀ (l : List Block) (buf : List Nat) (pos : Nat),
    (defragLoop buf pos l).2.1 = relocate pos l ∧
    (defragLoop buf pos l).2.2 = countMoved pos l
  | [], buf, pos => by simp [defragLoop, relocate, countMoved]
  | b :: bs, buf, pos => by
    obtain ⟨bid, bstart, bsize⟩ := b
    by_cases h : bstart = pos
    · subst h
      have ih := defragLoop_spec bs buf (bstart + bsize)
      simp [defragLoop, relocate, countMoved, ih.1, ih.2]
    · simp only [defragLoop, relocate, countMoved, if_neg h]
      have ih := defragLoop_spec bs
        (pySetSlice buf (pos : Int) ((pos : Int) + bsize)
          (pyGetSlice buf (bstart : Int) ((bstart : Int) + bsize))) (pos + bsize)
      exact ⟨by rw [ih.1], by rw [ih.2]; omega⟩

theorem relocate_map_idsize (l : List Block) : ∀ pos,
    (relocate pos l).map (fun b => (b.blockId, b.size)) =
      l.map (fun b => (b.blockId, b.size)) := by
  induction l with
  | nil => intro pos; rfl
  | cons b bs ih => intro pos; simp [relocate, ih]

theorem relocate_map_size (l : List Block) : ∀ pos,
    (relocate pos l).map Block.size = l.map Block.size := by
  induction l with
  | nil => intro pos; rfl
  | cons b bs ih => intro pos; simp [relocate, ih]

/-- The blocks, the moved count and the free list produced by
`_defragmentation`. -/
theorem defragRun_eq (s : MMState) :
    (s.defragRun).1.allocatedBlocks =
      relocate 0 (List.insertionSort Block.le s.allocatedBlocks) ∧
    (s.defragRun).2 = countMoved 0 (List.insertionSort Block.le s.allocatedBlocks) ∧
    (s.defragRun).1.freeBlocks =
      (if s.allocatedSize < s.totalSize then
        [⟨s.allocatedSize, s.totalSize - s.allocatedSize⟩] else []) ∧
    (s.defragRun).1.totalSize = s.totalSize ∧
    (s.defragRun).1.nextId = s.nextId ∧
    (s.defragRun).1.freedIds = s.freedIds := by
  have hspec := defragLoop_spec (List.insertionSort Block.le s.allocatedBlocks) s.buffer 0
  have hsum : ((defragLoop s.buffer 0
      (List.insertionSort Block.le s.allocatedBlocks)).2.1.map Block.size).sum =
      s.allocatedSize := by
    rw [hspec.1, relocate_map_size]
    exact ((List.perm_insertionSort Block.le s.allocatedBlocks).map Block.size).sum_eq
  simp only [MMState.defragRun]
  refine ⟨hspec.1, hspec.2, ?_, by trivial, by trivial, by trivial⟩
  rw [hsum]

/-- `allocated_size` is invariant under `_defragmentation`. -/
theorem defragRun_allocatedSize (s : MMState) :
    (s.defragRun).1.allocatedSize = s.allocatedSize := by
  show ((s.defragRun).1.allocatedBlocks.map Block.size).sum = _
  rw [(defragRun_eq s).1, relocate_map_size]
  exact ((List.perm_insertionSort Block.le s.allocatedBlocks).map Block.size).sum_eq

/-- After `_defragmentation`, `free_size` is the total size minus the
allocated size. -/
theorem defragRun_freeSize (s : MMState) :
    (s.defragRun).1.freeSize = s.totalSize - s.allocatedSize := by
  show ((s.defragRun).1.freeBlocks.map FreeBlock.size).sum = _
  rw [(defragRun_eq s).2.2.1]
  by_cases h : s.allocatedSize < s.totalSize
  · rw [if_pos h]; simp
  · rw [if_neg h]; simp; omega

/-! ### C7: defragmentation -/

/-- C7: `defragment()` sorts the allocated blocks by start offset and
slides each in order down to the lowest unused offset (`relocate 0`:
back-to-back placement keeping identity and size, changing only
`start`); it returns the number of blocks whose start differed from
their target (blocks already in place are not counted), and the free
list afterwards is the single trailing extent
`[allocated_size, total_size)`, or empty when the buffer is fully
allocated. -/
theorem claim_C7 (s : MMState) :
    (s.defragRun).1.allocatedBlocks =
      relocate 0 (List.insertionSort Block.le s.allocatedBlocks) ∧
    (s.defragRun).2 = countMoved 0 (List.insertionSort Block.le s.allocatedBlocks) ∧
    (s.defragRun).1.allocatedBlocks.map (fun b => (b.blockId, b.size)) =
      (List.insertionSort Block.le s.allocatedBlocks).map (fun b => (b.blockId, b.size)) ∧
    (s.defragRun).1.freeBlocks =
      (if s.allocatedSize < s.totalSize then
        [⟨s.allocatedSize, s.totalSize - s.allocatedSize⟩] else []) := by
  obtain ⟨h1, h2, h3, -⟩ := defragRun_eq s
  exact ⟨h1, h2, by rw [h1, relocate_map_idsize], h3⟩

/-! ### C8: first-fit allocation -/

theorem find?_fit_split : ∀ {l : List FreeBlock} {n : Nat} {fb : FreeBlock},
    l.find? (fun f => n ≤ f.size) = some fb →
    ∃ l1 l2, l = l1 ++ fb :: l2 ∧ (∀ g ∈ l1, g.size < n) ∧ n ≤ fb.size := by
  intro l
  induction l with
  | nil => intro n fb h; simp at h
  | cons g gs ih =>
    intro n fb h
    by_cases hg : n ≤ g.size
    · rw [List.find?_cons_of_pos _ (by simpa using hg)] at h
      obtain rfl : g = fb := by simpa using h
      exact ⟨[], gs, rfl, by simp, hg⟩
    · rw [List.find?_cons_of_neg _ (by simpa using hg)] at h
      obtain ⟨l1, l2, hsplit, hsmall, hfit⟩ := ih h
      refine ⟨g :: l1, l2, by rw [hsplit, List.cons_append], ?_, hfit⟩
      intro x hx
      rcases List.mem_cons.mp hx with rfl | hx
      · omega
      · exact hsmall x hx

/-- C8, first-fit: when some free extent fits the (positive) request,
`alloc` consumes the first fitting extent in current list order: every
extent before it is too small; the returned block starts at that
extent's start with the requested size and the next id; and the free
list afterwards is the old list with that extent removed, plus — only
when the extent is strictly larger than the request — the remainder
appended at the end (no re-sorting). -/
theorem claim_C8 (s : MMState) (size : Int) (fb : FreeBlock)
    (h0 : 0 < size) (hf : s.findFreeBlock size.toNat = some fb) :
    (∃ l1 l2, s.freeBlocks = l1 ++ fb :: l2 ∧
      (∀ g ∈ l1, g.size < size.toNat) ∧ size.toNat ≤ fb.size) ∧
    (s.alloc size).2 = .ok ⟨s.nextId, fb.start, size.toNat⟩ ∧
    (s.alloc size).1.freeBlocks =
      s.freeBlocks.erase fb ++
        (if size.toNat < fb.size then
          [⟨fb.start + size.toNat, fb.size - size.toNat⟩] else []) ∧
    (s.alloc size).1.allocatedBlocks =
      s.allocatedBlocks ++ [⟨s.nextId, fb.start, size.toNat⟩] := by
  have halloc : s.alloc size =
      ((s.allocAt fb size.toNat).1, .ok (s.allocAt fb size.toNat).2) := by
    simp only [MMState.alloc, if_neg (by omega : ¬ size ≤ 0), hf]
  refine ⟨find?_fit_split hf, ?_, ?_, ?_⟩
  · rw [halloc]; rfl
  · rw [halloc]
    show (if 0 < fb.size - size.toNat then
        s.freeBlocks.erase fb ++ [⟨fb.start + size.toNat, fb.size - size.toNat⟩]
      else s.freeBlocks.erase fb) = _
    rcases Nat.lt_or_ge size.toNat fb.size with h | h
    · rw [if_pos (by omega : 0 < fb.size - size.toNat), if_pos h]
    · rw [if_neg (by omega : ¬ 0 < fb.size - size.toNat),
        if_neg (by omega : ¬ size.toNat < fb.size), List.append_nil]
  · rw [halloc]; rfl

/-- Witness for C8 at a concrete input. -/
theorem claim_C8_witness :
    ((MMState.init 4).alloc 2).2 = .ok ⟨0, 0, 2⟩ :=
  (claim_C8 (MMState.init 4) 2 ⟨0, 4⟩ (by decide) (by decide)).2.1

/-! ### Failing allocations -/

/-- When `alloc` raises `OutOfMemory`, the call is exactly: compact,
search again, fail; the resulting state is the compacted one and the
error carries the requested size and its (post-compaction) free size. -/
theorem alloc_oom {s : MMState} {size r : Int} {a : Nat}
    (h : (s.alloc size).2 = .error (.outOfMemory r a)) :
    s.alloc size = ((s.defragRun).1, .error (.outOfMemory size (s.defragRun).1.freeSize)) ∧
    r = size ∧ a = (s.defragRun).1.freeSize := by
  by_cases hsz : size ≤ 0
  · simp [MMState.alloc, if_pos hsz] at h
  · cases hf1 : s.findFreeBlock size.toNat with
    | some fb => simp [MMState.alloc, if_neg hsz, hf1] at h
    | none =>
      cases hf2 : (s.defragRun).1.findFreeBlock size.toNat with
      | some fb => simp [MMState.alloc, if_neg hsz, hf1, hf2] at h
      | none =>
        have hstate : s.alloc size =
            ((s.defragRun).1, .error (.outOfMemory size (s.defragRun).1.freeSize)) := by
          simp only [MMState.alloc, if_neg hsz, hf1, hf2]
        rw [hstate] at h
        obtain ⟨h1, h2⟩ : size = r ∧ (s.defragRun).1.freeSize = a := by simpa using h
        exact ⟨hstate, h1.symm, h2.symm⟩

/-- The permutation of `(id, size)` pairs of the allocated blocks is
preserved by `_defragmentation`. -/
theorem defragRun_idsize (s : MMState) :
    ((s.defragRun).1.allocatedBlocks.map (fun b => (b.blockId, b.size))).Perm
      (s.allocatedBlocks.map (fun b => (b.blockId, b.size))) := by
  rw [(defragRun_eq s).1, relocate_map_idsize]
  exact (List.perm_insertionSort Block.le s.allocatedBlocks).map _

/-- A failed `free` (unknown handle or double free) leaves the state
unchanged. -/
theorem free_error_state (s : MMState) (i : Nat) (e : MMError)
    (h : (s.free i).2 = .error e) : (s.free i).1 = s := by
  unfold MMState.free at h ⊢
  cases hfind : s.allocatedBlocks.find? (fun b => b.blockId == i) with
  | none => dsimp only; split <;> rfl
  | some b => rw [hfind] at h; simp at h

/-- A failed `write` leaves the buffer unchanged. -/
theorem write_error_buffer (blk : MemoryBlock) (buf data : List Nat) (off : Int)
    (e : MMError) (h : (blk.write buf data off).2 = .error e) :
    (blk.write buf data off).1 = buf := by
  unfold MemoryBlock.write at h ⊢
  by_cases hf : blk.freed = true
  · rw [if_pos hf]
  · rw [if_neg hf] at h ⊢
    by_cases hb : off + (data.length : Int) > (blk.size : Int)
    · rw [if_pos hb]
    · rw [if_neg hb] at h; simp at h

/-! ### C6: out-of-memory reporting -/

/-- C6: when `alloc` fails with `OutOfMemory` (no fit even after the one
internal compaction pass), the error carries the requested size and the
current total free size — the sum over all free extents of the state at
raise time, not the largest contiguous one.  In the concrete scenario
of a 600-byte manager with five 100-byte allocations and the 2nd and
4th blocks freed, `alloc(400)` raises `OutOfMemory` with
`requested_size=400` and `available_size=300`. -/
theorem claim_C6 :
    (∀ (s : MMState) (size r : Int) (a : Nat),
      (s.alloc size).2 = .error (.outOfMemory r a) →
      r = size ∧ a = (s.alloc size).1.freeSize ∧
      (s.alloc size).1.freeSize =
        (((s.alloc size).1.freeBlocks).map FreeBlock.size).sum) ∧
    (((MMState.init 600).run
        [.alloc 100, .alloc 100, .alloc 100, .alloc 100, .alloc 100,
         .free 1, .free 3]).alloc 400).2 = .error (.outOfMemory 400 300) := by
  constructor
  · intro s size r a h
    obtain ⟨hst, h1, h2⟩ := alloc_oom h
    refine ⟨h1, ?_, rfl⟩
    rw [hst]
    exact h2
  · decide

/-- Witness for the general part of C6 at a concrete input: on a 1-byte
manager, `alloc(2)` reports `OutOfMemory` with the requested size 2 and
the available size 1 = the sum over all free extents. -/
theorem claim_C6_witness :
    (2 : Int) = 2 ∧ (1 : Nat) = ((MMState.init 1).alloc 2).1.freeSize ∧
    ((MMState.init 1).alloc 2).1.freeSize =
      ((((MMState.init 1).alloc 2).1.freeBlocks).map FreeBlock.size).sum :=
  claim_C6.1 (MMState.init 1) 2 2 1 (by decide)

/-! ### C3: failed calls and state mutation -/

/-- C3 counterexample: the claim "an allocate call that fails with
OutOfMemory leaves block positions and the free list exactly as they were before the call"
is false: the failing `alloc` first runs `_defragmentation()`, which
relocates blocks and rewrites the free list, and only then raises.  On
a 3-byte manager holding one live 1-byte block at offset 1 with free
extents `[0,1)` and `[2,3)`, `alloc(3)` raises `OutOfMemory` but the
state has changed (the block moved to offset 0 and the free list was
consolidated to `[1,3)`). -/
theorem claim_C3_counterexample :
    ((((MMState.init 3).run [.alloc 1, .alloc 1, .alloc 1, .free 0, .free 2]).alloc 3).2 =
      .error (.outOfMemory 3 2)) ∧
    ((((MMState.init 3).run [.alloc 1, .alloc 1, .alloc 1, .free 0, .free 2]).alloc 3).1 ≠
      (MMState.init 3).run [.alloc 1, .alloc 1, .alloc 1, .free 0, .free 2]) ∧
    ((((MMState.init 3).run [.alloc 1, .alloc 1, .alloc 1, .free 0, .free 2]).alloc
        3).1.allocatedBlocks = [⟨1, 0, 1⟩]) ∧
    (((MMState.init 3).run
        [.alloc 1, .alloc 1, .alloc 1, .free 0, .free 2]).allocatedBlocks = [⟨1, 1, 1⟩]) := by
  decide

/-- C3, amended: a failed call never leaves a *partial* mutation.  An
`alloc` rejected for non-positive size returns the state unchanged; a
failed `free` leaves the state unchanged; a failed block `write` leaves
the buffer unchanged; and an `alloc` that fails with `OutOfMemory`
leaves exactly the state produced by the internal full compaction pass:
the allocated blocks keep their identities and sizes (only positions
change), the allocated size is unchanged, and the free size equals
`total_size - allocated_size` (the pre-call free size whenever the
`allocated + free = total` invariant held). -/
theorem claim_C3 :
    (∀ (s : MMState) (size : Int), size ≤ 0 →
      s.alloc size = (s, .error (.invalidSize size))) ∧
    (∀ (s : MMState) (i : Nat) (e : MMError),
      (s.free i).2 = .error e → (s.free i).1 = s) ∧
    (∀ (blk : MemoryBlock) (buf data : List Nat) (off : Int) (e : MMError),
      (blk.write buf data off).2 = .error e → (blk.write buf data off).1 = buf) ∧
    (∀ (s : MMState) (size r : Int) (a : Nat),
      (s.alloc size).2 = .error (.outOfMemory r a) →
      (s.alloc size).1 = (s.defragRun).1 ∧
      ((s.alloc size).1.allocatedBlocks.map (fun b => (b.blockId, b.size))).Perm
        (s.allocatedBlocks.map (fun b => (b.blockId, b.size))) ∧
      (s.alloc size).1.allocatedSize = s.allocatedSize ∧
      (s.alloc size).1.freeSize = s.totalSize - s.allocatedSize) := by
  refine ⟨?_, free_error_state, write_error_buffer, ?_⟩
  · intro s size hsz
    simp [MMState.alloc, if_pos hsz]
  · intro s size r a h
    have hst : (s.alloc size).1 = (s.defragRun).1 := by rw [(alloc_oom h).1]
    rw [hst]
    exact ⟨rfl, defragRun_idsize s, defragRun_allocatedSize s, defragRun_freeSize s⟩

/-- Witness for the amended C3 at a concrete input. -/
theorem claim_C3_witness :
    (MMState.init 2).alloc 0 = (MMState.init 2, .error (.invalidSize 0)) :=
  claim_C3.1 (MMState.init 2) 0 (by decide)

/-! ### The allocator invariant -/

/-- `f` lies entirely at or before the start of `g` (sorted-and-disjoint
order). -/
def FreeBlock.before (f g : FreeBlock) : Prop := f.start + f.size ≤ g.start

/-- `f` ends strictly before `g` starts: disjoint and non-adjacent in
order. -/
def FreeBlock.sbefore (f g : FreeBlock) : Prop := f.start + f.size < g.start

theorem FreeBlock.sep_symm {f g : FreeBlock} (h : f.sep g) : g.sep f :=
  ⟨h.1.symm, h.2.2, h.2.1⟩

/-- The inductive invariant maintained by every `MemoryManager` call:
exact coverage of `[0, total_size)` by the live blocks and free
extents, pairwise separated free extents, positive sizes (except for
the initial extent of a zero-sized manager), and conservation of
`allocated_size + free_size = total_size`. -/
structure Inv (s : MMState) : Prop where
  cov : s.exactCover
  sepFree : s.freeBlocks.Pairwise FreeBlock.sep
  posFree : ∀ f ∈ s.freeBlocks, 0 < f.size ∨ s.totalSize = 0
  posAlloc : ∀ b ∈ s.allocatedBlocks, 0 < b.size
  sums : s.allocatedSize + s.freeSize = s.totalSize

theorem inv_init (n : Nat) : Inv (MMState.init n) where
  cov := by
    intro a
    simp only [MMState.cover, MMState.init, List.countP_nil, List.countP_cons, inFree,
      decide_eq_true_eq]
    split_ifs <;> omega
  sepFree := List.pairwise_singleton _ _
  posFree := by
    intro f hf
    obtain rfl : f = ⟨0, n⟩ := by simpa [MMState.init] using hf
    simp only [MMState.init]
    omega
  posAlloc := by intro b hb; simp [MMState.init] at hb
  sums := by simp [MMState.allocatedSize, MMState.freeSize, MMState.init]

/-- An address covered by some region lies below `total_size`. -/
theorem lt_total_of_cover_pos {s : MMState} (hc : s.exactCover) {a : Nat}
    (h : 0 < s.cover a) : a < s.totalSize := by
  by_contra hlt
  rw [hc a, if_neg (by omega)] at h
  omega

/-- A positive free extent held by the allocator covers its own start. -/
theorem free_cover_pos {s : MMState} {f : FreeBlock} (hf : f ∈ s.freeBlocks)
    (hpos : 0 < f.size) : 0 < s.cover f.start := by
  have h2 : 0 < s.freeBlocks.countP (inFree f.start) :=
    List.countP_pos_iff.mpr ⟨f, hf, by simp [inFree]; omega⟩
  unfold MMState.cover
  omega

/-- A positive allocated block covers its own start. -/
theorem alloc_cover_pos {s : MMState} {b : Block} (hb : b ∈ s.allocatedBlocks)
    (hpos : 0 < b.size) : 0 < s.cover b.start := by
  have h2 : 0 < s.allocatedBlocks.countP (inBlock b.start) :=
    List.countP_pos_iff.mpr ⟨b, hb, by simp [inBlock]; omega⟩
  unfold MMState.cover
  omega

/-- Exact coverage forbids a positive allocated block and a positive
free extent from overlapping. -/
theorem block_free_disjoint {s : MMState} (hc : s.exactCover) {b : Block} {f : FreeBlock}
    (hb : b ∈ s.allocatedBlocks) (hf : f ∈ s.freeBlocks)
    (hbpos : 0 < b.size) (hfpos : 0 < f.size) :
    b.start + b.size ≤ f.start ∨ f.start + f.size ≤ b.start := by
  by_contra hcon
  push_neg at hcon
  set a := max b.start f.start with ha
  have hib : inBlock a b = true := by simp [inBlock]; omega
  have hif : inFree a f = true := by simp [inFree]; omega
  have h1 : 0 < s.allocatedBlocks.countP (inBlock a) :=
    List.countP_pos_iff.mpr ⟨b, hb, hib⟩
  have h2 : 0 < s.freeBlocks.countP (inFree a) :=
    List.countP_pos_iff.mpr ⟨f, hf, hif⟩
  have h3 := hc a
  unfold MMState.cover at h3
  split_ifs at h3 <;> omega

/-! ### Coalescing preserves coverage and produces separated extents -/

theorem coalesceAux_countP : ∀ (l : List FreeBlock) (c : FreeBlock) (a : Nat),
    (coalesceAux c l).countP (inFree a) =
      (if inFree a c then 1 else 0) + l.countP (inFree a)
  | [], c, a => by simp [coalesceAux, List.countP_cons]
  | nb :: rest, c, a => by
    by_cases hmerge : c.start + c.size = nb.start
    · rw [coalesceAux, if_pos hmerge,
        coalesceAux_countP rest ⟨c.start, c.size + nb.size⟩ a, List.countP_cons]
      simp only [inFree, decide_eq_true_eq]
      split_ifs <;> omega
    · rw [coalesceAux, if_neg hmerge, List.countP_cons,
        coalesceAux_countP rest nb a, List.countP_cons]
      omega

theorem coalesceAux_sum : ∀ (l : List FreeBlock) (c : FreeBlock),
    ((coalesceAux c l).map FreeBlock.size).sum =
      c.size + ((l.map FreeBlock.size).sum)
  | [], c => by simp [coalesceAux]
  | nb :: rest, c => by
    by_cases hmerge : c.start + c.size = nb.start
    · rw [coalesceAux, if_pos hmerge, coalesceAux_sum rest ⟨c.start, c.size + nb.size⟩]
      simp only [List.map_cons, List.sum_cons]
      omega
    · rw [coalesceAux, if_neg hmerge]
      simp only [List.map_cons, List.sum_cons, coalesceAux_sum rest nb]

theorem coalesceAux_starts : ∀ (l : List FreeBlock) (c : FreeBlock),
    ∀ x ∈ coalesceAux c l, x.start = c.start ∨ x.start ∈ l.map FreeBlock.start
  | [], c => by simp [coalesceAux]
  | nb :: rest, c => by
    intro x hx
    by_cases hmerge : c.start + c.size = nb.start
    · rw [coalesceAux, if_pos hmerge] at hx
      rcases coalesceAux_starts rest ⟨c.start, c.size + nb.size⟩ x hx with h | h
      · exact Or.inl h
      · exact Or.inr (by simp [h])
    · rw [coalesceAux, if_neg hmerge] at hx
      rcases List.mem_cons.mp hx with rfl | hx
      · exact Or.inl rfl
      · rcases coalesceAux_starts rest nb x hx with h | h
        · exact Or.inr (by simp [h])
        · exact Or.inr (by simp [h])

theorem coalesceAux_sep : ∀ (l : List FreeBlock) (c : FreeBlock),
    (c :: l).Pairwise FreeBlock.before → 0 < c.size → (∀ f ∈ l, 0 < f.size) →
    (coalesceAux c l).Pairwise FreeBlock.sbefore ∧
      (∀ x ∈ coalesceAux c l, 0 < x.size)
  | [], c => by
    intro _ hc _
    refine ⟨List.pairwise_singleton _ _, ?_⟩
    intro x hx
    obtain rfl : x = c := by simpa [coalesceAux] using hx
    exact hc
  | nb :: rest, c => by
    intro hpw hc hpos
    obtain ⟨hcall, hpw'⟩ := List.pairwise_cons.mp hpw
    obtain ⟨hnball, hpwrest⟩ := List.pairwise_cons.mp hpw'
    have hnbpos : 0 < nb.size := hpos nb (by simp)
    have hrestpos : ∀ f ∈ rest, 0 < f.size := fun f hf => hpos f (by simp [hf])
    by_cases hmerge : c.start + c.size = nb.start
    · rw [coalesceAux, if_pos hmerge]
      refine coalesceAux_sep rest ⟨c.start, c.size + nb.size⟩ ?_ (by simp; omega) hrestpos
      refine List.pairwise_cons.mpr ⟨?_, hpwrest⟩
      intro r hr
      have hnbr := hnball r hr
      simp only [FreeBlock.before] at hnbr ⊢
      omega
    · rw [coalesceAux, if_neg hmerge]
      have hcnb : c.start + c.size ≤ nb.start := hcall nb (by simp)
      obtain ⟨hrecpw, hrecpos⟩ := coalesceAux_sep rest nb hpw' hnbpos hrestpos
      refine ⟨List.pairwise_cons.mpr ⟨?_, hrecpw⟩, ?_⟩
      · intro x hx
        have hxs : x.start = nb.start ∨ x.start ∈ rest.map FreeBlock.start :=
          coalesceAux_starts rest nb x hx
        have hxge : nb.start ≤ x.start := by
          rcases hxs with h | h
          · omega
          · obtain ⟨r, hr, hrx⟩ := List.mem_map.mp h
            have := hnball r hr
            unfold FreeBlock.before at this
            omega
        unfold FreeBlock.sbefore
        omega
      · intro x hx
        rcases List.mem_cons.mp hx with rfl | hx
        · exact hc
        · exact hrecpos x hx

/-- The separated order implies the claim's symmetric separation. -/
theorem sbefore_sep {f g : FreeBlock} (h : f.sbefore g) : f.sep g := by
  unfold FreeBlock.sbefore at h
  exact ⟨Or.inl (by omega), by omega, by omega⟩

/-- Splitting a free extent: the remainder extent stays separated from
every extent the consumed one was separated from. -/
theorem sep_remainder {fb g : FreeBlock} {n : Nat} (hsep : fb.sep g) (hgpos : 0 < g.size)
    (hn : 0 < n) (hlt : n < fb.size) :
    g.sep ⟨fb.start + n, fb.size - n⟩ := by
  obtain ⟨hd, hne1, hne2⟩ := hsep
  unfold FreeBlock.sep at *
  rcases hd with hd | hd
  · exact ⟨Or.inr (by dsimp only; omega), by dsimp only; omega, by dsimp only; omega⟩
  · exact ⟨Or.inl (by dsimp only; omega), by dsimp only; omega, by dsimp only; omega⟩

/-- The success path of `alloc` preserves the invariant. -/
theorem inv_allocAt {s : MMState} {fb : FreeBlock} {n : Nat} (h : Inv s)
    (hf : s.findFreeBlock n = some fb) (hn : 0 < n) :
    Inv (s.allocAt fb n).1 := by
  have hfb : fb ∈ s.freeBlocks := List.mem_of_find?_eq_some hf
  have hfit : n ≤ fb.size := by simpa using List.find?_some hf
  have hfbpos : 0 < fb.size := by omega
  have htot : 0 < s.totalSize := by
    have := lt_total_of_cover_pos h.cov (free_cover_pos hfb hfbpos)
    omega
  have hposFree : ∀ f ∈ s.freeBlocks, 0 < f.size := by
    intro f hfmem
    rcases h.posFree f hfmem with hp | hp
    · exact hp
    · omega
  have hperm : s.freeBlocks.Perm (fb :: s.freeBlocks.erase fb) := List.perm_cons_erase hfb
  have hsepcons : (fb :: s.freeBlocks.erase fb).Pairwise FreeBlock.sep :=
    ((List.Perm.pairwise_iff (fun hxy => FreeBlock.sep_symm hxy)) hperm).mp h.sepFree
  have hsepfb : ∀ g ∈ s.freeBlocks.erase fb, fb.sep g := (List.pairwise_cons.mp hsepcons).1
  have hseperase : (s.freeBlocks.erase fb).Pairwise FreeBlock.sep :=
    (List.pairwise_cons.mp hsepcons).2
  refine ⟨?_, ?_, ?_, ?_, ?_⟩
  · -- exact coverage
    intro a
    have e1 := h.cov a
    unfold MMState.cover at e1
    have e2 := hperm.countP_eq (inFree a)
    rw [List.countP_cons] at e2
    show (s.allocatedBlocks ++ [(⟨s.nextId, fb.start, n⟩ : Block)]).countP (inBlock a) +
        (if 0 < fb.size - n then
          s.freeBlocks.erase fb ++ [(⟨fb.start + n, fb.size - n⟩ : FreeBlock)]
        else s.freeBlocks.erase fb).countP (inFree a) =
      if a < s.totalSize then 1 else 0
    by_cases hrem : 0 < fb.size - n
    · rw [if_pos hrem]
      simp only [List.countP_append, List.countP_cons, List.countP_nil] at e1 e2 ⊢
      simp only [inBlock, inFree, decide_eq_true_eq] at e1 e2 ⊢
      split_ifs at e1 e2 ⊢ <;> omega
    · rw [if_neg hrem]
      simp only [List.countP_append, List.countP_cons, List.countP_nil] at e1 e2 ⊢
      simp only [inBlock, inFree, decide_eq_true_eq] at e1 e2 ⊢
      split_ifs at e1 e2 ⊢ <;> omega
  · -- separation of the free extents
    show (if 0 < fb.size - n then
        s.freeBlocks.erase fb ++ [(⟨fb.start + n, fb.size - n⟩ : FreeBlock)]
      else s.freeBlocks.erase fb).Pairwise FreeBlock.sep
    by_cases hrem : 0 < fb.size - n
    · rw [if_pos hrem]
      refine List.pairwise_append.mpr ⟨hseperase, List.pairwise_singleton _ _, ?_⟩
      intro g hg r hr
      obtain rfl : r = ⟨fb.start + n, fb.size - n⟩ := by simpa using hr
      exact sep_remainder (hsepfb g hg) (hposFree g (List.mem_of_mem_erase hg)) hn
        (by omega)
    · rw [if_neg hrem]
      exact hseperase
  · -- positive free sizes
    intro f hfmem
    show 0 < f.size ∨ s.totalSize = 0
    left
    simp only [MMState.allocAt] at hfmem
    by_cases hrem : 0 < fb.size - n
    · rw [if_pos hrem] at hfmem
      rcases List.mem_append.mp hfmem with hfm | hfm
      · exact hposFree f (List.mem_of_mem_erase hfm)
      · obtain rfl : f = ⟨fb.start + n, fb.size - n⟩ := by simpa using hfm
        exact hrem
    · rw [if_neg hrem] at hfmem
      exact hposFree f (List.mem_of_mem_erase hfmem)
  · -- positive allocated sizes
    intro b hb
    simp only [MMState.allocAt, List.mem_append, List.mem_singleton] at hb
    rcases hb with hb | rfl
    · exact h.posAlloc b hb
    · exact hn
  · -- size conservation
    have hsum := h.sums
    unfold MMState.allocatedSize MMState.freeSize at hsum
    have hfs : (s.freeBlocks.map FreeBlock.size).sum =
        fb.size + ((s.freeBlocks.erase fb).map FreeBlock.size).sum := by
      have := (hperm.map FreeBlock.size).sum_eq
      simpa using this
    show ((s.allocatedBlocks ++ [(⟨s.nextId, fb.start, n⟩ : Block)]).map Block.size).sum +
        ((if 0 < fb.size - n then
            s.freeBlocks.erase fb ++ [(⟨fb.start + n, fb.size - n⟩ : FreeBlock)]
          else s.freeBlocks.erase fb).map FreeBlock.size).sum = s.totalSize
    by_cases hrem : 0 < fb.size - n
    · rw [if_pos hrem]
      simp only [List.map_append, List.sum_append, List.map_cons, List.sum_cons,
        List.map_nil, List.sum_nil]
      omega
    · rw [if_neg hrem]
      simp only [List.map_append, List.sum_append, List.map_cons, List.sum_cons,
        List.map_nil, List.sum_nil]
      omega

/-- Relocated blocks cover exactly `[pos, pos + sum of sizes)`. -/
theorem relocate_countP (l : List Block) : ∀ (pos a : Nat),
    (relocate pos l).countP (inBlock a) =
      if pos ≤ a ∧ a < pos + (l.map Block.size).sum then 1 else 0 := by
  induction l with
  | nil =>
    intro pos a
    simp only [relocate, List.countP_nil, List.map_nil, List.sum_nil]
    split_ifs <;> omega
  | cons b bs ih =>
    intro pos a
    simp only [relocate, List.countP_cons, List.map_cons, List.sum_cons, ih]
    simp only [inBlock, decide_eq_true_eq]
    split_ifs <;> omega

theorem relocate_mem_size (l : List Block) : ∀ (pos : Nat) (x : Block),
    x ∈ relocate pos l → ∃ b ∈ l, x.size = b.size := by
  induction l with
  | nil => intro pos x hx; simp [relocate] at hx
  | cons b bs ih =>
    intro pos x hx
    rcases List.mem_cons.mp hx with rfl | hx
    · exact ⟨b, by simp, rfl⟩
    · obtain ⟨b', hb', hsz⟩ := ih (pos + b.size) x hx
      exact ⟨b', by simp [hb'], hsz⟩

/-- `_defragmentation` (re-)establishes the invariant: it only needs
size conservation and positivity of the input state. -/
theorem inv_defrag {s : MMState} (h : Inv s) : Inv (s.defragRun).1 := by
  obtain ⟨halloc, -, hfree, htot, -, -⟩ := defragRun_eq s
  have hA : s.allocatedSize ≤ s.totalSize := by have := h.sums; omega
  have hsortsum : ((List.insertionSort Block.le s.allocatedBlocks).map Block.size).sum =
      s.allocatedSize :=
    ((List.perm_insertionSort Block.le s.allocatedBlocks).map Block.size).sum_eq
  refine ⟨?_, ?_, ?_, ?_, ?_⟩
  · intro a
    unfold MMState.cover
    rw [halloc, hfree, htot, relocate_countP, hsortsum]
    by_cases hAT : s.allocatedSize < s.totalSize
    · rw [if_pos hAT]
      simp only [List.countP_cons, List.countP_nil, inFree, decide_eq_true_eq]
      split_ifs <;> omega
    · rw [if_neg hAT]
      simp only [List.countP_nil]
      split_ifs <;> omega
  · rw [hfree]
    by_cases hAT : s.allocatedSize < s.totalSize
    · rw [if_pos hAT]; exact List.pairwise_singleton _ _
    · rw [if_neg hAT]; exact List.Pairwise.nil
  · intro f hf
    rw [hfree] at hf
    by_cases hAT : s.allocatedSize < s.totalSize
    · rw [if_pos hAT] at hf
      obtain rfl : f = ⟨s.allocatedSize, s.totalSize - s.allocatedSize⟩ := by simpa using hf
      left
      simp only
      omega
    · rw [if_neg hAT] at hf
      simp at hf
  · intro b hb
    rw [halloc] at hb
    obtain ⟨b', hb', hsz⟩ := relocate_mem_size _ _ _ hb
    rw [hsz]
    exact h.posAlloc b' ((List.perm_insertionSort Block.le s.allocatedBlocks).mem_iff.mp hb')
  · show (s.defragRun).1.allocatedSize + (s.defragRun).1.freeSize = (s.defragRun).1.totalSize
    rw [defragRun_allocatedSize, defragRun_freeSize, htot]
    omega

/-- `alloc` preserves the invariant on every path (success, invalid
size, compaction retry, out of memory). -/
theorem inv_alloc {s : MMState} (size : Int) (h : Inv s) : Inv (s.alloc size).1 := by
  by_cases hsz : size ≤ 0
  · have : (s.alloc size).1 = s := by simp [MMState.alloc, if_pos hsz]
    rw [this]; exact h
  · cases hf1 : s.findFreeBlock size.toNat with
    | some fb =>
      have : (s.alloc size).1 = (s.allocAt fb size.toNat).1 := by
        simp [MMState.alloc, if_neg hsz, hf1]
      rw [this]
      exact inv_allocAt h hf1 (by omega)
    | none =>
      cases hf2 : (s.defragRun).1.findFreeBlock size.toNat with
      | some fb =>
        have : (s.alloc size).1 = ((s.defragRun).1.allocAt fb size.toNat).1 := by
          simp [MMState.alloc, if_neg hsz, hf1, hf2]
        rw [this]
        exact inv_allocAt (inv_defrag h) hf2 (by omega)
      | none =>
        have : (s.alloc size).1 = (s.defragRun).1 := by
          simp [MMState.alloc, if_neg hsz, hf1, hf2]
        rw [this]
        exact inv_defrag h

/-- `free` preserves the invariant on both paths. -/
theorem inv_free {s : MMState} (i : Nat) (h : Inv s) : Inv (s.free i).1 := by
  cases hfind : s.allocatedBlocks.find? (fun b => b.blockId == i) with
  | none =>
    have hst : (s.free i).1 = s := by
      unfold MMState.free
      rw [hfind]
      dsimp only
      split <;> rfl
    rw [hst]
    exact h
  | some b =>
    have hb : b ∈ s.allocatedBlocks := List.mem_of_find?_eq_some hfind
    have hbpos : 0 < b.size := h.posAlloc b hb
    have htot : 0 < s.totalSize := by
      have := lt_total_of_cover_pos h.cov (alloc_cover_pos hb hbpos)
      omega
    have hposFree : ∀ f ∈ s.freeBlocks, 0 < f.size := by
      intro f hfmem
      rcases h.posFree f hfmem with hp | hp
      · exact hp
      · omega
    have hst : (s.free i).1 = { s with
        buffer := pySetSlice s.buffer (b.start : Int) ((b.start : Int) + b.size)
          (List.replicate b.size 0)
        allocatedBlocks := s.allocatedBlocks.erase b
        freeBlocks := (coalesceFreeBlocks (List.insertionSort FreeBlock.le
          (s.freeBlocks ++ [(⟨b.start, b.size⟩ : FreeBlock)]))).getD []
        freedIds := i :: s.freedIds } := by
      unfold MMState.free
      rw [hfind]
    obtain ⟨x, xs, hSL⟩ : ∃ x xs, List.insertionSort FreeBlock.le
        (s.freeBlocks ++ [(⟨b.start, b.size⟩ : FreeBlock)]) = x :: xs := by
      cases hq : List.insertionSort FreeBlock.le
          (s.freeBlocks ++ [(⟨b.start, b.size⟩ : FreeBlock)]) with
      | nil =>
        exfalso
        have := congrArg List.length hq
        simp [List.length_insertionSort] at this
      | cons x xs => exact ⟨x, xs, rfl⟩
    have hfree2 : (coalesceFreeBlocks (List.insertionSort FreeBlock.le
        (s.freeBlocks ++ [(⟨b.start, b.size⟩ : FreeBlock)]))).getD [] =
        coalesceAux x xs := by
      rw [hSL]
      rfl
    have hpermL : (x :: xs).Perm (s.freeBlocks ++ [(⟨b.start, b.size⟩ : FreeBlock)]) := by
      have := List.perm_insertionSort FreeBlock.le
        (s.freeBlocks ++ [(⟨b.start, b.size⟩ : FreeBlock)])
      rwa [hSL] at this
    have hposL : ∀ f ∈ s.freeBlocks ++ [(⟨b.start, b.size⟩ : FreeBlock)], 0 < f.size := by
      intro f hfmem
      rcases List.mem_append.mp hfmem with hfm | hfm
      · exact hposFree f hfm
      · obtain rfl : f = ⟨b.start, b.size⟩ := by simpa using hfm
        exact hbpos
    have hposxxs : ∀ f ∈ x :: xs, 0 < f.size := fun f hf =>
      hposL f (hpermL.mem_iff.mp hf)
    have hdisjL : (s.freeBlocks ++ [(⟨b.start, b.size⟩ : FreeBlock)]).Pairwise
        (fun f g => f.start + f.size ≤ g.start ∨ g.start + g.size ≤ f.start) := by
      refine List.pairwise_append.mpr
        ⟨h.sepFree.imp (fun hsep => hsep.1), List.pairwise_singleton _ _, ?_⟩
      intro f hf g hg
      obtain rfl : g = ⟨b.start, b.size⟩ := by simpa using hg
      rcases block_free_disjoint h.cov hb hf hbpos (hposFree f hf) with hd | hd
      · exact Or.inr (by dsimp only; omega)
      · exact Or.inl (by dsimp only; omega)
    have hdisjSL : (x :: xs).Pairwise
        (fun f g => f.start + f.size ≤ g.start ∨ g.start + g.size ≤ f.start) :=
      ((List.Perm.pairwise_iff (fun hd => Or.symm hd)) hpermL).mpr hdisjL
    have hsorted : (x :: xs).Pairwise FreeBlock.le := by
      have := List.sorted_insertionSort FreeBlock.le
        (s.freeBlocks ++ [(⟨b.start, b.size⟩ : FreeBlock)])
      rwa [hSL] at this
    have hbefore : (x :: xs).Pairwise FreeBlock.before := by
      refine (hsorted.and hdisjSL).imp_of_mem ?_
      intro f g hfm hgm hfg
      have hgpos : 0 < g.size := hposxxs g hgm
      unfold FreeBlock.le at hfg
      unfold FreeBlock.before
      rcases hfg.2 with hd | hd
      · exact hd
      · omega
    obtain ⟨hsb, hpos2⟩ := coalesceAux_sep xs x (List.pairwise_cons.mpr
      ⟨(List.pairwise_cons.mp hbefore).1, (List.pairwise_cons.mp hbefore).2⟩)
      (hposxxs x (by simp)) (fun f hf => hposxxs f (by simp [hf]))
    rw [hst, hfree2]
    refine ⟨?_, ?_, ?_, ?_, ?_⟩
    · intro a
      have e1 := h.cov a
      unfold MMState.cover at e1
      have eA := (List.perm_cons_erase hb).countP_eq (inBlock a)
      rw [List.countP_cons] at eA
      have eF : (coalesceAux x xs).countP (inFree a) =
          s.freeBlocks.countP (inFree a) +
            (if inFree a ⟨b.start, b.size⟩ then 1 else 0) := by
        rw [coalesceAux_countP]
        have hp := hpermL.countP_eq (inFree a)
        rw [List.countP_cons, List.countP_append, List.countP_cons, List.countP_nil] at hp
        omega
      show (s.allocatedBlocks.erase b).countP (inBlock a) +
          (coalesceAux x xs).countP (inFree a) = if a < s.totalSize then 1 else 0
      simp only [inBlock, inFree, decide_eq_true_eq] at e1 eA eF ⊢
      split_ifs at e1 eA eF ⊢ <;> omega
    · exact hsb.imp (fun hx => sbefore_sep hx)
    · intro f hf
      exact Or.inl (hpos2 f hf)
    · intro b' hb'
      exact h.posAlloc b' (List.mem_of_mem_erase hb')
    · have hsum := h.sums
      unfold MMState.allocatedSize MMState.freeSize at hsum
      have eA := ((List.perm_cons_erase hb).map Block.size).sum_eq
      simp only [List.map_cons, List.sum_cons] at eA
      have eF : ((coalesceAux x xs).map FreeBlock.size).sum =
          (s.freeBlocks.map FreeBlock.size).sum + b.size := by
        rw [coalesceAux_sum]
        have hp := (hpermL.map FreeBlock.size).sum_eq
        simp only [List.map_cons, List.sum_cons, List.map_append, List.sum_append,
          List.map_nil, List.sum_nil] at hp
        omega
      show ((s.allocatedBlocks.erase b).map Block.size).sum +
          ((coalesceAux x xs).map FreeBlock.size).sum = s.totalSize
      omega

/-- Every public call preserves the invariant. -/
theorem inv_step {s : MMState} (op : Op) (h : Inv s) : Inv (s.step op) := by
  cases op with
  | alloc n => exact inv_alloc n h
  | free i => exact inv_free i h
  | defragment => exact inv_defrag h

/-- The invariant holds after any sequence of calls. -/
theorem inv_run : ∀ (ops : List Op) (s : MMState), Inv s → Inv (s.run ops)
  | [], _, h => h
  | op :: ops, s, h => inv_run ops (s.step op) (inv_step op h)

theorem step_totalSize (s : MMState) (op : Op) : (s.step op).totalSize = s.totalSize := by
  cases op with
  | alloc n =>
    show (s.alloc n).1.totalSize = s.totalSize
    by_cases hsz : n ≤ 0
    · simp [MMState.alloc, if_pos hsz]
    · cases hf1 : s.findFreeBlock n.toNat with
      | some fb => simp [MMState.alloc, if_neg hsz, hf1, MMState.allocAt]
      | none =>
        have h2 := (defragRun_eq s).2.2.2.1
        cases hf2 : (s.defragRun).1.findFreeBlock n.toNat with
        | some fb => simp [MMState.alloc, if_neg hsz, hf1, hf2, MMState.allocAt, h2]
        | none => simp [MMState.alloc, if_neg hsz, hf1, hf2, h2]
  | free i =>
    show (s.free i).1.totalSize = s.totalSize
    cases hfind : s.allocatedBlocks.find? (fun b => b.blockId == i) with
    | none =>
      unfold MMState.free
      rw [hfind]
      dsimp only
      split <;> rfl
    | some b =>
      unfold MMState.free
      rw [hfind]
  | defragment => exact (defragRun_eq s).2.2.2.1

theorem run_totalSize : ∀ (ops : List Op) (s : MMState),
    (MMState.run s ops).totalSize = s.totalSize
  | [], _ => rfl
  | op :: ops, s => by
    rw [show MMState.run s (op :: ops) = MMState.run (s.step op) ops from rfl,
      run_totalSize ops (s.step op), step_totalSize]

/-! ### C1: exact coverage and separated free extents -/

/-- C1: after every sequence of allocate/release/defragment calls, every
address below `total_size` lies in exactly one region — a live block's
range or a free extent's range — and every address at or above
`total_size` in none (the union is exactly `[0, total_size)` with no
overlaps and no gaps); moreover the free extents are pairwise
non-overlapping and no two are adjacent. -/
theorem claim_C1 (n : Nat) (ops : List Op) :
    ((MMState.init n).run ops).exactCover ∧
    ((MMState.init n).run ops).freeBlocks.Pairwise FreeBlock.sep :=
  ⟨(inv_run ops _ (inv_init n)).cov, (inv_run ops _ (inv_init n)).sepFree⟩

/-! ### C2: size conservation -/

/-- C2: after every sequence of calls on a manager of capacity `n`,
`allocated_size + free_size = total_size` (and `total_size` is still
`n`). -/
theorem claim_C2 (n : Nat) (ops : List Op) :
    ((MMState.init n).run ops).allocatedSize + ((MMState.init n).run ops).freeSize =
      ((MMState.init n).run ops).totalSize ∧
    ((MMState.init n).run ops).totalSize = n :=
  ⟨(inv_run ops _ (inv_init n)).sums, by rw [run_totalSize]; rfl⟩

end MemMgr
